import Mathlib

/-!
Verification of the text-chunking pipeline in `src/tokenizer.py`.

The development shallowly embeds the three core functions of the source:
`clean_text` (text normalizer), `pick_chunk_params` (chunk planner) and
`split_chunks_by_tokens` (token-window splitter).  The two external
libraries the source uses are modelled at their interface:
`unicodedata.category` as a `Unicode` structure carrying the category
function, and `tiktoken` as a `Tokenizer` structure carrying
`encode`/`decode` (with `decode` returning `Option`, `none` standing for
a raised exception).
-/

/-- Model of the `unicodedata` interface the source uses: the Unicode
general-category function, returning two-letter category names such as
"Cc", "Zs", "So". -/
structure Unicode where
  category : Char → String

/-- Python `cat.startswith("C")` on a category name: the first character
of the string is 'C'. -/
def startsWithC (s : String) : Bool := s.data.head? = some 'C'

/-- The character class removed by step 3 of `clean_text` (line 34 of the
source): general category beginning with "C", or exactly "So". -/
def stripClass (u : Unicode) (c : Char) : Bool :=
  startsWithC (u.category c) || (u.category c == "So")

/-- One character of the scan in step 3 of `clean_text` (lines 30-38):
`'\n'` is kept, characters in `stripClass` are replaced by a space, all
others are kept. -/
def scanChar (u : Unicode) (c : Char) : Char :=
  if c = '\n' then c else if stripClass u c then ' ' else c

/-- Step 3 of `clean_text`: the per-character scan over the whole text. -/
def scanText (u : Unicode) : List Char → List Char :=
  List.map (scanChar u)

/-- Step 1 of `clean_text` (lines 20-21): drop a leading U+FEFF. -/
def dropBOM : List Char → List Char
  | c :: rest => if c = '\ufeff' then rest else c :: rest
  | [] => []

/-- Step 2 of `clean_text` (line 24): replace every U+FFFD by a space. -/
def replaceFFFD : List Char → List Char :=
  List.map (fun c => if c = '\ufffd' then ' ' else c)

/-- Case-insensitive match of the letter n, as Python `re.IGNORECASE`
folds ASCII letters. -/
def isN (c : Char) : Bool := c = 'n' || c = 'N'

/-- Case-insensitive match of the letter u. -/
def isU (c : Char) : Bool := c = 'u' || c = 'U'

/-- Case-insensitive match of the letter l. -/
def isL (c : Char) : Bool := c = 'l' || c = 'L'

/-- A character that can occur inside a case-insensitive "null" match. -/
def isNullLetter (c : Char) : Bool := isN c || isU c || isL c

/-- Head of a list satisfies a predicate. -/
def headSat (p : Char → Bool) : List Char → Bool
  | c :: _ => p c
  | [] => false

/-- The last letter "l" of a "null" match starting here. -/
def match1 : List Char → Bool := headSat isL

/-- The last two letters "ll" of a "null" match starting here. -/
def match2 : List Char → Bool
  | c :: rest => isL c && match1 rest
  | [] => false

/-- The last three letters "ull" of a "null" match starting here. -/
def match3 : List Char → Bool
  | c :: rest => isU c && match2 rest
  | [] => false

/-- A case-insensitive "null" match starting at the head of the list. -/
def match4 : List Char → Bool
  | c :: rest => isN c && match3 rest
  | [] => false

/-- Step 4 of `clean_text` (line 42): Python
`re.sub(r"null", " ", text, flags=re.IGNORECASE)` — leftmost,
non-overlapping replacement of every case-insensitive "null" by one
space. -/
def removeNull : List Char → List Char
  | a :: b :: c :: d :: rest =>
      if isN a && isU b && isL c && isL d then ' ' :: removeNull rest
      else a :: removeNull (b :: c :: d :: rest)
  | a :: rest => a :: removeNull rest
  | [] => []

/-- A generic scanner: some position of the list satisfies the local
predicate `p` on the remainder starting there. -/
def scanAny (p : List Char → Bool) : List Char → Bool
  | c :: rest => p (c :: rest) || scanAny p rest
  | [] => false

/-- The character is a space. -/
def isSp (c : Char) : Bool := c = ' '

/-- The character is a line feed. -/
def isLF (c : Char) : Bool := c = '\n'

/-- Two consecutive spaces starting at the head. -/
def pairSpace : List Char → Bool
  | c :: rest => isSp c && headSat isSp rest
  | [] => false

/-- Python `"  " in text`: the text contains two consecutive spaces. -/
def hasDouble : List Char → Bool := scanAny pairSpace

/-- The text contains a case-insensitive occurrence of "null". -/
def hasNull : List Char → Bool := scanAny match4

/-- One pass of Python `text.replace("  ", " ")`: leftmost,
non-overlapping replacement of each space pair by one space. -/
def replaceDouble : List Char → List Char
  | ' ' :: ' ' :: rest => ' ' :: replaceDouble rest
  | c :: rest => c :: replaceDouble rest
  | [] => []

/-- The `while "  " in text` loop of step 5 (lines 45-46), run on
explicit fuel.  Each iteration of the source loop strictly shortens the
text, so `s.length` fuel provably reaches the loop's fixed point
(`collapseFuel_hasDouble` below). -/
def collapseFuel : Nat → List Char → List Char
  | fuel + 1, s => if hasDouble s then collapseFuel fuel (replaceDouble s) else s
  | 0, s => s

/-- Step 5 of `clean_text`: collapse runs of spaces by iterating
`replace("  ", " ")` to its fixed point. -/
def collapseSpaces (s : List Char) : List Char := collapseFuel s.length s

/-- First half of step 6 (line 50): `text.replace("\r\n", "\n")`. -/
def replaceCRLF : List Char → List Char
  | '\r' :: '\n' :: rest => '\n' :: replaceCRLF rest
  | c :: rest => c :: replaceCRLF rest
  | [] => []

/-- Second half of step 6 (line 50): `text.replace("\r", "\n")`. -/
def replaceCR : List Char → List Char :=
  List.map (fun c => if c = '\r' then '\n' else c)

/-- Worker for `re.sub(r"\n{3,}", "\n\n", text)` (line 52).  In state
`false` it scans for a run of three or more newlines; on finding one it
emits two newlines and switches to state `true`, which consumes the rest
of the (greedily matched) run before resuming the scan. -/
def colAux : Bool → List Char → List Char
  | _, [] => []
  | true, '\n' :: rest => colAux true rest
  | true, c :: rest => c :: colAux false rest
  | false, '\n' :: '\n' :: '\n' :: rest => '\n' :: '\n' :: colAux true rest
  | false, c :: rest => c :: colAux false rest

/-- Second part of step 6: collapse every run of three or more newlines
to exactly two. -/
def collapseNewlines : List Char → List Char := colAux false

/-- Python `str.isspace` / the whitespace set stripped by `str.strip()`
with no arguments. -/
def pyIsSpace (c : Char) : Bool :=
  c = ' ' || c = '\t' || c = '\n' || c = '\r' ||
  c.toNat = 0x0b || c.toNat = 0x0c ||
  (0x1c ≤ c.toNat && c.toNat ≤ 0x1f) || c.toNat = 0x85 || c.toNat = 0xa0 ||
  c.toNat = 0x1680 || (0x2000 ≤ c.toNat && c.toNat ≤ 0x200a) ||
  c.toNat = 0x2028 || c.toNat = 0x2029 || c.toNat = 0x202f ||
  c.toNat = 0x205f || c.toNat = 0x3000

/-- Python `text.strip()` (line 55): drop whitespace from both ends. -/
def pyStrip (s : List Char) : List Char :=
  ((s.dropWhile pyIsSpace).reverse.dropWhile pyIsSpace).reverse

/-- The whole `clean_text` pipeline on a character list: steps 1-6 of
the source followed by the final strip. -/
def cleanList (u : Unicode) (s : List Char) : List Char :=
  pyStrip (collapseNewlines (replaceCR (replaceCRLF
    (collapseSpaces (removeNull (scanText u (replaceFFFD (dropBOM s))))))))

/-- `clean_text` of the source (lines 9-55), parametrised by the Unicode
category function. -/
def clean_text (u : Unicode) (text : String) : String :=
  String.mk (cleanList u text.data)

/-- Three or more consecutive newlines starting at the head (the
pattern `\n{3,}` matches here). -/
def tripleLF : List Char → Bool
  | c :: rest => isLF c && headSat isLF rest && headSat isLF rest.tail
  | [] => false

/-- The text contains a run of three or more newlines. -/
def hasTriple : List Char → Bool := scanAny tripleLF

/-- Model of the `tiktoken` encoding interface: `encode` and `decode`
against the fixed "cl100k_base" vocabulary.  `decode` returns `none`
where the library would raise on a token subsequence that is not
decodable on its own. -/
structure Tokenizer where
  encode : String → List Nat
  decode : List Nat → Option String

/-- `pick_chunk_params` of the source (lines 57-72): the ordered lookup
table on the token count of the text. -/
def pick_chunk_params (tok : Tokenizer) (text : String) : Nat × Nat :=
  let n_tokens := (tok.encode text).length
  if n_tokens < 300 then (n_tokens, 0)
  else if n_tokens < 2000 then (512, 64)
  else if n_tokens < 5000 then (1024, 128)
  else if n_tokens < 12000 then (1500, 200)
  else (2000, 250)

/-- The loop step of `split_chunks_by_tokens` (lines 84-86):
`step = chunk_size - overlap`, reset to `chunk_size` when that is not
positive.  (On naturals, `chunk_size - overlap = 0` exactly when the
Python `int` difference is `≤ 0`.) -/
def chunkStep (chunk_size overlap : Nat) : Nat :=
  if chunk_size - overlap = 0 then chunk_size else chunk_size - overlap

/-- The number of iterations Python `range(0, n, step)` makes for
`step > 0`. -/
def windowCount (n step : Nat) : Nat := (n + step - 1) / step

/-- Python `range(0, n, step)` for `step > 0`: the start indices of the
token windows in the loop of line 88. -/
def windowStarts (n step : Nat) : List Nat :=
  List.range' 0 (windowCount n step) step

/-- The exclusive right end of the token window starting at `i`: the
slice `tokens[i : i + chunk_size]` covers `[i, min (i + chunk_size) n)`. -/
def windowEnd (n chunk_size i : Nat) : Nat := min (i + chunk_size) n

/-- `split_chunks_by_tokens` of the source (lines 74-97).  The result is
`none` exactly when Python's `range(0, len(tokens), step)` raises
`ValueError` because `step = 0` (which happens precisely for
`chunk_size = 0`); the `try/except` around `decode` is modelled by
`Option.getD` with the empty string. -/
def split_chunks_by_tokens (tok : Tokenizer) (text : String)
    (chunk_size overlap : Nat) : Option (List String) :=
  let tokens := tok.encode text
  let step := chunkStep chunk_size overlap
  if step = 0 then none
  else some ((windowStarts tokens.length step).map
    (fun i => ((tok.decode ((tokens.drop i).take chunk_size)).getD "")))

/-- A test tokenizer whose `encode` returns no tokens: the degenerate
empty-text case (`tiktoken` encodes the empty string to `[]`). -/
def tokEmpty : Tokenizer :=
  { encode := fun _ => [], decode := fun _ => some "" }

/-- A test tokenizer with a one-token stream. -/
def tokOne : Tokenizer :=
  { encode := fun _ => [0], decode := fun l => if l = [0] then some "a" else none }

/-- A test tokenizer encoding every text to 250 tokens. -/
def tok250 : Tokenizer :=
  { encode := fun _ => List.replicate 250 0, decode := fun _ => some "" }

/-- A test tokenizer whose `decode` rejects exactly the second window
`[3, 4]` of its four-token stream. -/
def tokFail : Tokenizer :=
  { encode := fun _ => [1, 2, 3, 4],
    decode := fun l => if l = [3, 4] then none else some "X" }

/-- Fragment of the Unicode character database: exact on the ASCII range
(every codepoint below U+0080) and on U+FEFF (Cf) and U+FFFD (So);
codepoints outside the fragment are nominally mapped to "Cn".  The
concrete scenarios in this file only normalize ASCII text. -/
def asciiCat (c : Char) : String :=
  if c.toNat ≤ 0x1f ∨ c.toNat = 0x7f then "Cc"
  else if c = ' ' then "Zs"
  else if '0' ≤ c ∧ c ≤ '9' then "Nd"
  else if 'A' ≤ c ∧ c ≤ 'Z' then "Lu"
  else if 'a' ≤ c ∧ c ≤ 'z' then "Ll"
  else if c = '$' then "Sc"
  else if c = '+' ∨ c = '<' ∨ c = '=' ∨ c = '>' ∨ c = '|' ∨ c = '~' then "Sm"
  else if c = '^' ∨ c.toNat = 0x60 then "Sk"
  else if c = '(' ∨ c.toNat = 0x5b ∨ c.toNat = 0x7b then "Ps"
  else if c = ')' ∨ c.toNat = 0x5d ∨ c.toNat = 0x7d then "Pe"
  else if c = '_' then "Pc"
  else if c = '-' then "Pd"
  else if c.toNat ≤ 0x7e then "Po"
  else if c = '\ufeff' then "Cf"
  else if c = '\ufffd' then "So"
  else "Cn"

/-- The modelled Unicode database used in the concrete scenarios. -/
def ucd : Unicode := { category := asciiCat }

example : removeNull "nunullll".data = "nu ll".data := by decide
example : replaceDouble "   a".data = "  a".data := by decide
example : collapseSpaces "Hello   world".data = "Hello world".data := by decide
example : collapseNewlines "a\n\n\n\n\nb".data = "a\n\nb".data := by decide
example : pyStrip "  a b\n".data = "a b".data := by decide

/-! ### Basic facts about the scanners -/

theorem headSat_iff {p : Char → Bool} {l : List Char} :
    headSat p l = true ↔ ∃ c, l.head? = some c ∧ p c = true := by
  cases l <;> simp [headSat]

theorem scanAny_cons {p : List Char → Bool} {c : Char} {t : List Char} :
    scanAny p (c :: t) = (p (c :: t) || scanAny p t) := rfl

theorem hasNull_cons {c : Char} {t : List Char} :
    hasNull (c :: t) = (match4 (c :: t) || hasNull t) := rfl

theorem hasDouble_cons {c : Char} {t : List Char} :
    hasDouble (c :: t) = (pairSpace (c :: t) || hasDouble t) := rfl

theorem hasTriple_cons {c : Char} {t : List Char} :
    hasTriple (c :: t) = (tripleLF (c :: t) || hasTriple t) := rfl

theorem match4_cons {c : Char} {t : List Char} :
    match4 (c :: t) = (isN c && match3 t) := rfl

theorem match3_cons {c : Char} {t : List Char} :
    match3 (c :: t) = (isU c && match2 t) := rfl

theorem match2_cons {c : Char} {t : List Char} :
    match2 (c :: t) = (isL c && match1 t) := rfl

theorem pairSpace_cons {c : Char} {t : List Char} :
    pairSpace (c :: t) = (isSp c && headSat isSp t) := rfl

theorem tripleLF_cons {c : Char} {t : List Char} :
    tripleLF (c :: t) = (isLF c && headSat isLF t && headSat isLF t.tail) := rfl

theorem nullLetter_ne {c : Char} (h : isNullLetter c = true) :
    c ≠ ' ' ∧ c ≠ '\n' := by
  simp only [isNullLetter, isN, isU, isL, Bool.or_eq_true, decide_eq_true_eq] at h
  rcases h with ((h | h) | (h | h)) | (h | h) <;> subst h <;> exact ⟨by decide, by decide⟩

theorem isL_nullLetter {c : Char} (h : isL c = true) : isNullLetter c = true := by
  simp [isNullLetter, h]

theorem isU_nullLetter {c : Char} (h : isU c = true) : isNullLetter c = true := by
  simp [isNullLetter, h]

/-! ### Append monotonicity of the local scanner predicates -/

theorem match1_append {l r : List Char} (h : match1 l = true) :
    match1 (l ++ r) = true := by
  cases l with
  | nil => simp [match1, headSat] at h
  | cons c t => simpa [match1, headSat] using h

theorem match2_append {l r : List Char} (h : match2 l = true) :
    match2 (l ++ r) = true := by
  cases l with
  | nil => simp [match2] at h
  | cons c t =>
    simp only [match2, Bool.and_eq_true] at h
    simp only [List.cons_append, match2, Bool.and_eq_true]
    exact ⟨h.1, match1_append h.2⟩

theorem match3_append {l r : List Char} (h : match3 l = true) :
    match3 (l ++ r) = true := by
  cases l with
  | nil => simp [match3] at h
  | cons c t =>
    simp only [match3, Bool.and_eq_true] at h
    simp only [List.cons_append, match3, Bool.and_eq_true]
    exact ⟨h.1, match2_append h.2⟩

theorem match4_append {l r : List Char} (h : match4 l = true) :
    match4 (l ++ r) = true := by
  cases l with
  | nil => simp [match4] at h
  | cons c t =>
    simp only [match4, Bool.and_eq_true] at h
    simp only [List.cons_append, match4, Bool.and_eq_true]
    exact ⟨h.1, match3_append h.2⟩

theorem headSat_append {p : Char → Bool} {l r : List Char} (h : headSat p l = true) :
    headSat p (l ++ r) = true := by
  cases l with
  | nil => simp [headSat] at h
  | cons c t => simpa [headSat] using h

theorem pairSpace_append {l r : List Char} (h : pairSpace l = true) :
    pairSpace (l ++ r) = true := by
  cases l with
  | nil => simp [pairSpace] at h
  | cons c t =>
    simp only [pairSpace, Bool.and_eq_true] at h
    simp only [List.cons_append, pairSpace, Bool.and_eq_true]
    exact ⟨h.1, headSat_append h.2⟩

theorem tripleLF_append {l r : List Char} (h : tripleLF l = true) :
    tripleLF (l ++ r) = true := by
  cases l with
  | nil => simp [tripleLF] at h
  | cons c t =>
    simp only [tripleLF, Bool.and_eq_true] at h
    obtain ⟨⟨h1, h2⟩, h3⟩ := h
    obtain ⟨d, hd, hdp⟩ := headSat_iff.mp h2
    cases t with
    | nil => simp [List.head?] at hd
    | cons e t' =>
      simp only [List.head?, Option.some.injEq] at hd
      subst hd
      simp only [List.cons_append, tripleLF, Bool.and_eq_true]
      refine ⟨⟨h1, by simpa [headSat] using hdp⟩, ?_⟩
      simpa [List.tail] using headSat_append (by simpa [List.tail] using h3)

theorem scanAny_append_right {p : List Char → Bool} {t : List Char}
    (h : scanAny p t = true) : ∀ s : List Char, scanAny p (s ++ t) = true := by
  intro s
  induction s with
  | nil => simpa using h
  | cons c s ih => simp [scanAny_cons, ih]

theorem scanAny_append_left {p : List Char → Bool}
    (hp : ∀ l r : List Char, p l = true → p (l ++ r) = true) :
    ∀ {s : List Char}, scanAny p s = true → ∀ r : List Char, scanAny p (s ++ r) = true := by
  intro s
  induction s with
  | nil => intro h; simp [scanAny] at h
  | cons c s ih =>
    intro h r
    rw [scanAny_cons, Bool.or_eq_true] at h
    rcases h with h | h
    · have := hp (c :: s) r h
      simp only [List.cons_append] at this ⊢
      simp [scanAny_cons, this]
    · simp only [List.cons_append]
      simp [scanAny_cons, ih h r]

/-! ### Peel lemmas: when a transformation's output starts with an
ordinary character, so does its input, and the transformation commutes
with uncons there. -/

theorem peel_replaceDouble {s : List Char} {c : Char}
    (h : (replaceDouble s).head? = some c) (hc : c ≠ ' ') :
    ∃ s', s = c :: s' ∧ replaceDouble s = c :: replaceDouble s' := by
  induction s using replaceDouble.induct with
  | case1 rest ih =>
    simp only [replaceDouble, List.head?, Option.some.injEq] at h
    exact absurd h.symm hc
  | case2 a rest hne ih =>
    simp only [replaceDouble] at h ⊢
    simp only [List.head?, Option.some.injEq] at h
    exact ⟨rest, by rw [h], by rw [h]⟩
  | case3 => simp [replaceDouble] at h

theorem peel_replaceCRLF {s : List Char} {c : Char}
    (h : (replaceCRLF s).head? = some c) (hc : c ≠ '\n') :
    ∃ s', s = c :: s' ∧ replaceCRLF s = c :: replaceCRLF s' := by
  induction s using replaceCRLF.induct with
  | case1 rest ih =>
    simp only [replaceCRLF, List.head?, Option.some.injEq] at h
    exact absurd h.symm hc
  | case2 a rest hne ih =>
    simp only [replaceCRLF] at h ⊢
    simp only [List.head?, Option.some.injEq] at h
    exact ⟨rest, by rw [h], by rw [h]⟩
  | case3 => simp [replaceCRLF] at h

theorem peel_removeNull {s : List Char} {c : Char}
    (h : (removeNull s).head? = some c) (hc : c ≠ ' ') :
    ∃ s', s = c :: s' ∧ removeNull s = c :: removeNull s' := by
  induction s using removeNull.induct with
  | case1 a b d e rest hm ih =>
    simp only [removeNull, hm, if_true, List.head?, Option.some.injEq] at h
    exact absurd h.symm hc
  | case2 a b d e rest hm ih =>
    refine ⟨b :: d :: e :: rest, ?_, ?_⟩ <;>
      simp only [removeNull, hm, Bool.false_eq_true, if_false, List.head?,
        Option.some.injEq] at h ⊢ <;> rw [h]
  | case3 a rest hne ih =>
    simp only [removeNull] at h ⊢
    simp only [List.head?, Option.some.injEq] at h
    exact ⟨rest, by rw [h], by rw [h]⟩
  | case4 => simp [removeNull] at h

theorem peel_colAux_false {s : List Char} {c : Char}
    (h : (colAux false s).head? = some c) (hc : c ≠ '\n') :
    ∃ s', s = c :: s' ∧ colAux false s = c :: colAux false s' := by
  cases s with
  | nil => simp [colAux] at h
  | cons a rest =>
    by_cases ha : a = '\n' ∧ headSat isLF rest ∧ headSat isLF rest.tail
    · obtain ⟨ha1, ha2, ha3⟩ := ha
      subst ha1
      obtain ⟨b, hb, hbp⟩ := headSat_iff.mp ha2
      cases rest with
      | nil => simp [List.head?] at hb
      | cons b' r' =>
        simp only [List.head?, Option.some.injEq] at hb
        subst hb
        simp only [isLF, decide_eq_true_eq] at hbp
        subst hbp
        obtain ⟨d, hd, hdp⟩ := headSat_iff.mp ha3
        cases r' with
        | nil => simp [List.head?] at hd
        | cons d' r'' =>
          simp only [List.tail, List.head?, Option.some.injEq] at hd
          subst hd
          simp only [isLF, decide_eq_true_eq] at hdp
          subst hdp
          simp only [colAux, List.head?, Option.some.injEq] at h
          exact absurd h.symm hc
    · have heq : colAux false (a :: rest) = a :: colAux false rest := by
        cases rest with
        | nil =>
          by_cases h1 : a = '\n' <;> simp [colAux, h1]
        | cons b' r' =>
          cases r' with
          | nil =>
            by_cases h1 : a = '\n' <;> by_cases h2 : b' = '\n' <;>
              simp [colAux, h1, h2]
          | cons d' r'' =>
            by_cases h1 : a = '\n'
            · by_cases h2 : b' = '\n'
              · by_cases h3 : d' = '\n'
                · exact absurd ⟨h1, by simp [headSat, h2, isLF],
                    by simp [headSat, h3, isLF]⟩ ha
                · simp [colAux, h1, h2, h3]
              · simp [colAux, h1, h2]
            · simp [colAux, h1]
      rw [heq] at h
      simp only [List.head?, Option.some.injEq] at h
      exact ⟨rest, by rw [h], by rw [heq, h]⟩

/-! ### Pulling a "null" match back through a transformation -/

theorem match1_peel {T : List Char → List Char}
    (hp : ∀ s c, (T s).head? = some c → isNullLetter c = true →
      ∃ s', s = c :: s' ∧ T s = c :: T s')
    {s : List Char} (h : match1 (T s) = true) : match1 s = true := by
  obtain ⟨c, hc, hcp⟩ := headSat_iff.mp h
  obtain ⟨s', hs, hT⟩ := hp s c hc (isL_nullLetter hcp)
  subst hs
  simp [match1, headSat, hcp]

theorem match2_peel {T : List Char → List Char}
    (hp : ∀ s c, (T s).head? = some c → isNullLetter c = true →
      ∃ s', s = c :: s' ∧ T s = c :: T s')
    {s : List Char} (h : match2 (T s) = true) : match2 s = true := by
  cases hTs : T s with
  | nil => rw [hTs] at h; simp [match2] at h
  | cons c t =>
    rw [hTs, match2_cons, Bool.and_eq_true] at h
    obtain ⟨s', hs, hT⟩ := hp s c (by rw [hTs]; rfl) (isL_nullLetter h.1)
    rw [hT] at hTs
    have ht : t = T s' := by
      simpa using hTs.symm
    subst hs
    rw [match2_cons, Bool.and_eq_true]
    exact ⟨h.1, match1_peel hp (ht ▸ h.2)⟩

theorem match3_peel {T : List Char → List Char}
    (hp : ∀ s c, (T s).head? = some c → isNullLetter c = true →
      ∃ s', s = c :: s' ∧ T s = c :: T s')
    {s : List Char} (h : match3 (T s) = true) : match3 s = true := by
  cases hTs : T s with
  | nil => rw [hTs] at h; simp [match3] at h
  | cons c t =>
    rw [hTs, match3_cons, Bool.and_eq_true] at h
    obtain ⟨s', hs, hT⟩ := hp s c (by rw [hTs]; rfl) (isU_nullLetter h.1)
    rw [hT] at hTs
    have ht : t = T s' := by
      simpa using hTs.symm
    subst hs
    rw [match3_cons, Bool.and_eq_true]
    exact ⟨h.1, match2_peel hp (ht ▸ h.2)⟩

/-! ### Helper: falseness of the scanners, unfolded one step -/

theorem hasNull_cons_false {c : Char} {t : List Char} :
    hasNull (c :: t) = false ↔ match4 (c :: t) = false ∧ hasNull t = false := by
  rw [hasNull_cons]; simp

theorem hasDouble_cons_false {c : Char} {t : List Char} :
    hasDouble (c :: t) = false ↔ pairSpace (c :: t) = false ∧ hasDouble t = false := by
  rw [hasDouble_cons]; simp

theorem hasTriple_cons_false {c : Char} {t : List Char} :
    hasTriple (c :: t) = false ↔ tripleLF (c :: t) = false ∧ hasTriple t = false := by
  rw [hasTriple_cons]; simp

theorem peelNull_replaceDouble :
    ∀ (s : List Char) (c : Char), ((replaceDouble s).head? = some c) →
      isNullLetter c = true → ∃ s', s = c :: s' ∧ replaceDouble s = c :: replaceDouble s' :=
  fun _ _ h hl => peel_replaceDouble h (nullLetter_ne hl).1

theorem peelNull_replaceCRLF :
    ∀ (s : List Char) (c : Char), ((replaceCRLF s).head? = some c) →
      isNullLetter c = true → ∃ s', s = c :: s' ∧ replaceCRLF s = c :: replaceCRLF s' :=
  fun _ _ h hl => peel_replaceCRLF h (nullLetter_ne hl).2

theorem peelNull_removeNull :
    ∀ (s : List Char) (c : Char), ((removeNull s).head? = some c) →
      isNullLetter c = true → ∃ s', s = c :: s' ∧ removeNull s = c :: removeNull s' :=
  fun _ _ h hl => peel_removeNull h (nullLetter_ne hl).1

theorem peelNull_colAux_false :
    ∀ (s : List Char) (c : Char), ((colAux false s).head? = some c) →
      isNullLetter c = true → ∃ s', s = c :: s' ∧ colAux false s = c :: colAux false s' :=
  fun _ _ h hl => peel_colAux_false h (nullLetter_ne hl).2

/-! ### No "null" occurrence survives `removeNull`, and later stages
cannot create one -/

theorem hasNull_removeNull (s : List Char) : hasNull (removeNull s) = false := by
  induction s using removeNull.induct with
  | case1 a b d e rest hm ih =>
    simp only [removeNull, hm, if_true]
    rw [hasNull_cons_false]
    refine ⟨?_, ih⟩
    rw [match4_cons]
    simp [isN]
  | case2 a b d e rest hm ih =>
    simp only [removeNull, hm, Bool.false_eq_true, if_false]
    rw [hasNull_cons_false]
    refine ⟨?_, ih⟩
    cases hx : match4 (a :: removeNull (b :: d :: e :: rest)) with
    | false => rfl
    | true =>
      exfalso
      rw [match4_cons, Bool.and_eq_true] at hx
      have h3 : match3 (b :: d :: e :: rest) = true :=
        match3_peel peelNull_removeNull hx.2
      rw [match3_cons, Bool.and_eq_true] at h3
      obtain ⟨hU, h2⟩ := h3
      rw [match2_cons, Bool.and_eq_true] at h2
      obtain ⟨hL1, h1⟩ := h2
      have hL2 : isL e = true := by simpa [match1, headSat] using h1
      exact hm (by rw [hx.1, hU, hL1, hL2]; rfl)
  | case3 a rest hne ih =>
    simp only [removeNull]
    rw [hasNull_cons_false]
    refine ⟨?_, ih⟩
    cases hx : match4 (a :: removeNull rest) with
    | false => rfl
    | true =>
      exfalso
      rw [match4_cons, Bool.and_eq_true] at hx
      have h3 : match3 rest = true := match3_peel peelNull_removeNull hx.2
      cases rest with
      | nil => simp [match3] at h3
      | cons b t =>
        cases t with
        | nil =>
          rw [match3_cons, Bool.and_eq_true] at h3
          simp [match2] at h3
        | cons d t' =>
          cases t' with
          | nil =>
            rw [match3_cons, Bool.and_eq_true] at h3
            obtain ⟨hU, h2⟩ := h3
            rw [match2_cons, Bool.and_eq_true] at h2
            simp [match1, headSat] at h2
          | cons e t'' => exact hne b d e t'' rfl
  | case4 => simp [removeNull, hasNull, scanAny]

theorem hasNull_replaceDouble {s : List Char} (h : hasNull s = false) :
    hasNull (replaceDouble s) = false := by
  induction s using replaceDouble.induct with
  | case1 rest ih =>
    rw [hasNull_cons_false] at h
    rw [hasNull_cons_false] at h
    simp only [replaceDouble]
    rw [hasNull_cons_false]
    refine ⟨by rw [match4_cons]; simp [isN], ih h.2.2⟩
  | case2 a rest hne ih =>
    rw [hasNull_cons_false] at h
    simp only [replaceDouble]
    rw [hasNull_cons_false]
    refine ⟨?_, ih h.2⟩
    cases hx : match4 (a :: replaceDouble rest) with
    | false => rfl
    | true =>
      exfalso
      rw [match4_cons, Bool.and_eq_true] at hx
      have h3 : match3 rest = true := match3_peel peelNull_replaceDouble hx.2
      have : match4 (a :: rest) = true := by
        rw [match4_cons, hx.1, h3]; rfl
      rw [this] at h
      simp at h
  | case3 => simp [replaceDouble, hasNull, scanAny]

theorem hasNull_replaceCRLF {s : List Char} (h : hasNull s = false) :
    hasNull (replaceCRLF s) = false := by
  induction s using replaceCRLF.induct with
  | case1 rest ih =>
    rw [hasNull_cons_false] at h
    rw [hasNull_cons_false] at h
    simp only [replaceCRLF]
    rw [hasNull_cons_false]
    refine ⟨by rw [match4_cons]; simp [isN], ih h.2.2⟩
  | case2 a rest hne ih =>
    rw [hasNull_cons_false] at h
    simp only [replaceCRLF]
    rw [hasNull_cons_false]
    refine ⟨?_, ih h.2⟩
    cases hx : match4 (a :: replaceCRLF rest) with
    | false => rfl
    | true =>
      exfalso
      rw [match4_cons, Bool.and_eq_true] at hx
      have h3 : match3 rest = true := match3_peel peelNull_replaceCRLF hx.2
      have : match4 (a :: rest) = true := by
        rw [match4_cons, hx.1, h3]; rfl
      rw [this] at h
      simp at h
  | case3 => simp [replaceCRLF, hasNull, scanAny]

/-- The single-character substitution of `replace("\r", "\n")`. -/
theorem crChar_isN (c : Char) : isN (if c = '\r' then '\n' else c) = isN c := by
  by_cases h : c = '\r' <;> simp [h, isN]

theorem crChar_isU (c : Char) : isU (if c = '\r' then '\n' else c) = isU c := by
  by_cases h : c = '\r' <;> simp [h, isU]

theorem crChar_isL (c : Char) : isL (if c = '\r' then '\n' else c) = isL c := by
  by_cases h : c = '\r' <;> simp [h, isL]

theorem crChar_isSp (c : Char) : isSp (if c = '\r' then '\n' else c) = isSp c := by
  by_cases h : c = '\r' <;> simp [h, isSp]

theorem match1_replaceCR {s : List Char} (h : match1 (replaceCR s) = true) :
    match1 s = true := by
  cases s with
  | nil => simp [replaceCR, match1, headSat] at h
  | cons c t =>
    simp only [replaceCR, List.map, match1, headSat] at h ⊢
    rwa [crChar_isL] at h

theorem match2_replaceCR {s : List Char} (h : match2 (replaceCR s) = true) :
    match2 s = true := by
  cases s with
  | nil => simp [replaceCR, match2] at h
  | cons c t =>
    simp only [replaceCR, List.map, match2_cons, Bool.and_eq_true] at h ⊢
    exact ⟨by rw [← crChar_isL c]; exact h.1, match1_replaceCR h.2⟩

theorem match3_replaceCR {s : List Char} (h : match3 (replaceCR s) = true) :
    match3 s = true := by
  cases s with
  | nil => simp [replaceCR, match3] at h
  | cons c t =>
    simp only [replaceCR, List.map, match3_cons, Bool.and_eq_true] at h ⊢
    exact ⟨by rw [← crChar_isU c]; exact h.1, match2_replaceCR h.2⟩

theorem hasNull_replaceCR {s : List Char} (h : hasNull s = false) :
    hasNull (replaceCR s) = false := by
  induction s with
  | nil => simp [replaceCR, hasNull, scanAny]
  | cons c t ih =>
    rw [hasNull_cons_false] at h
    simp only [replaceCR, List.map]
    rw [hasNull_cons_false]
    refine ⟨?_, ih h.2⟩
    cases hx : match4 ((if c = '\r' then '\n' else c) :: List.map (fun c => if c = '\r' then '\n' else c) t) with
    | false => rfl
    | true =>
      exfalso
      rw [match4_cons, Bool.and_eq_true, crChar_isN] at hx
      have h3 : match3 t = true := match3_replaceCR hx.2
      have : match4 (c :: t) = true := by
        rw [match4_cons, hx.1, h3]; rfl
      rw [this] at h
      simp at h

theorem hasNull_colAux : ∀ (b : Bool) (s : List Char), hasNull s = false →
    hasNull (colAux b s) = false := by
  intro b s
  induction b, s using colAux.induct with
  | case1 b => intro h; simpa [colAux] using h
  | case2 rest ih =>
    intro h
    rw [hasNull_cons_false] at h
    simpa [colAux] using ih h.2
  | case3 c rest hne ih =>
    intro h
    rw [hasNull_cons_false] at h
    simp only [colAux]
    rw [hasNull_cons_false]
    refine ⟨?_, ih h.2⟩
    cases hx : match4 (c :: colAux false rest) with
    | false => rfl
    | true =>
      exfalso
      rw [match4_cons, Bool.and_eq_true] at hx
      have h3 : match3 rest = true := match3_peel peelNull_colAux_false hx.2
      have : match4 (c :: rest) = true := by
        rw [match4_cons, hx.1, h3]; rfl
      rw [this] at h
      simp at h
  | case4 rest ih =>
    intro h
    rw [hasNull_cons_false] at h
    rw [hasNull_cons_false] at h
    rw [hasNull_cons_false] at h
    simp only [colAux]
    rw [hasNull_cons_false]
    refine ⟨by rw [match4_cons]; simp [isN], ?_⟩
    rw [hasNull_cons_false]
    exact ⟨by rw [match4_cons]; simp [isN], ih h.2.2.2⟩
  | case5 c rest hne ih =>
    intro h
    rw [hasNull_cons_false] at h
    simp only [colAux]
    rw [hasNull_cons_false]
    refine ⟨?_, ih h.2⟩
    cases hx : match4 (c :: colAux false rest) with
    | false => rfl
    | true =>
      exfalso
      rw [match4_cons, Bool.and_eq_true] at hx
      have h3 : match3 rest = true := match3_peel peelNull_colAux_false hx.2
      have : match4 (c :: rest) = true := by
        rw [match4_cons, hx.1, h3]; rfl
      rw [this] at h
      simp at h

/-! ### Double spaces: eliminated by the collapse loop, not reintroduced
afterwards -/

theorem replaceDouble_length_le (s : List Char) :
    (replaceDouble s).length ≤ s.length := by
  induction s using replaceDouble.induct with
  | case1 rest ih => simp [replaceDouble]; omega
  | case2 c rest hne ih => simp [replaceDouble]; omega
  | case3 => simp [replaceDouble]

theorem replaceDouble_length_lt {s : List Char} (h : hasDouble s = true) :
    (replaceDouble s).length < s.length := by
  induction s using replaceDouble.induct with
  | case1 rest ih =>
    simp only [replaceDouble, List.length_cons]
    have := replaceDouble_length_le rest
    omega
  | case2 c rest hne ih =>
    rw [hasDouble_cons, Bool.or_eq_true] at h
    rcases h with h | h
    · exfalso
      rw [pairSpace_cons, Bool.and_eq_true] at h
      obtain ⟨d, hd, hdp⟩ := headSat_iff.mp h.2
      cases rest with
      | nil => simp [List.head?] at hd
      | cons e t =>
        simp only [List.head?, Option.some.injEq] at hd
        subst hd
        simp only [isSp, decide_eq_true_eq] at h hdp
        exact hne t h.1 (by rw [hdp])
    · simp only [replaceDouble, List.length_cons]
      have := ih h
      omega
  | case3 => simp [hasDouble, scanAny] at h

theorem collapseFuel_hasDouble : ∀ (fuel : Nat) (s : List Char),
    s.length ≤ fuel → hasDouble (collapseFuel fuel s) = false := by
  intro fuel
  induction fuel with
  | zero =>
    intro s hs
    have : s = [] := List.length_eq_zero.mp (Nat.le_zero.mp hs)
    subst this
    simp [collapseFuel, hasDouble, scanAny]
  | succ n ih =>
    intro s hs
    simp only [collapseFuel]
    cases hd : hasDouble s with
    | false => simpa using hd
    | true =>
      simp only [if_true]
      exact ih _ (by have := replaceDouble_length_lt hd; omega)

theorem hasDouble_collapseSpaces (s : List Char) :
    hasDouble (collapseSpaces s) = false :=
  collapseFuel_hasDouble s.length s (Nat.le_refl _)

theorem headSp_replaceCRLF {s : List Char} (h : headSat isSp (replaceCRLF s) = true) :
    headSat isSp s = true := by
  obtain ⟨c, hc, hcp⟩ := headSat_iff.mp h
  simp only [isSp, decide_eq_true_eq] at hcp
  subst hcp
  obtain ⟨s', hs, _⟩ := peel_replaceCRLF hc (by decide)
  subst hs
  simp [headSat, isSp]

theorem headSp_colAux_false {s : List Char} (h : headSat isSp (colAux false s) = true) :
    headSat isSp s = true := by
  obtain ⟨c, hc, hcp⟩ := headSat_iff.mp h
  simp only [isSp, decide_eq_true_eq] at hcp
  subst hcp
  obtain ⟨s', hs, _⟩ := peel_colAux_false hc (by decide)
  subst hs
  simp [headSat, isSp]

theorem hasDouble_replaceCRLF {s : List Char} (h : hasDouble s = false) :
    hasDouble (replaceCRLF s) = false := by
  induction s using replaceCRLF.induct with
  | case1 rest ih =>
    rw [hasDouble_cons_false] at h
    rw [hasDouble_cons_false] at h
    simp only [replaceCRLF]
    rw [hasDouble_cons_false]
    refine ⟨?_, ih h.2.2⟩
    rw [pairSpace_cons]
    simp [isSp]
  | case2 a rest hne ih =>
    rw [hasDouble_cons_false] at h
    simp only [replaceCRLF]
    rw [hasDouble_cons_false]
    refine ⟨?_, ih h.2⟩
    cases hx : pairSpace (a :: replaceCRLF rest) with
    | false => rfl
    | true =>
      exfalso
      rw [pairSpace_cons, Bool.and_eq_true] at hx
      have : pairSpace (a :: rest) = true := by
        rw [pairSpace_cons, hx.1, headSp_replaceCRLF hx.2]; rfl
      rw [this] at h
      simp at h
  | case3 => simp [replaceCRLF, hasDouble, scanAny]

theorem hasDouble_replaceCR {s : List Char} (h : hasDouble s = false) :
    hasDouble (replaceCR s) = false := by
  induction s with
  | nil => simp [replaceCR, hasDouble, scanAny]
  | cons c t ih =>
    rw [hasDouble_cons_false] at h
    simp only [replaceCR, List.map]
    rw [hasDouble_cons_false]
    refine ⟨?_, ih h.2⟩
    cases hx : pairSpace ((if c = '\r' then '\n' else c) :: List.map (fun c => if c = '\r' then '\n' else c) t) with
    | false => rfl
    | true =>
      exfalso
      rw [pairSpace_cons, Bool.and_eq_true, crChar_isSp] at hx
      have hsp : headSat isSp t = true := by
        obtain ⟨d, hd, hdp⟩ := headSat_iff.mp hx.2
        cases t with
        | nil => simp [List.map, List.head?] at hd
        | cons e t' =>
          simp only [List.map, List.head?, Option.some.injEq] at hd
          subst hd
          rw [crChar_isSp] at hdp
          simpa [headSat] using hdp
      have : pairSpace (c :: t) = true := by
        rw [pairSpace_cons, hx.1, hsp]; rfl
      rw [this] at h
      simp at h

theorem hasDouble_colAux : ∀ (b : Bool) (s : List Char), hasDouble s = false →
    hasDouble (colAux b s) = false := by
  intro b s
  induction b, s using colAux.induct with
  | case1 b => intro h; simpa [colAux] using h
  | case2 rest ih =>
    intro h
    rw [hasDouble_cons_false] at h
    simpa [colAux] using ih h.2
  | case3 c rest hne ih =>
    intro h
    rw [hasDouble_cons_false] at h
    simp only [colAux]
    rw [hasDouble_cons_false]
    refine ⟨?_, ih h.2⟩
    cases hx : pairSpace (c :: colAux false rest) with
    | false => rfl
    | true =>
      exfalso
      rw [pairSpace_cons, Bool.and_eq_true] at hx
      have : pairSpace (c :: rest) = true := by
        rw [pairSpace_cons, hx.1, headSp_colAux_false hx.2]; rfl
      rw [this] at h
      simp at h
  | case4 rest ih =>
    intro h
    rw [hasDouble_cons_false] at h
    rw [hasDouble_cons_false] at h
    rw [hasDouble_cons_false] at h
    simp only [colAux]
    rw [hasDouble_cons_false]
    refine ⟨by rw [pairSpace_cons]; simp [isSp], ?_⟩
    rw [hasDouble_cons_false]
    exact ⟨by rw [pairSpace_cons]; simp [isSp], ih h.2.2.2⟩
  | case5 c rest hne ih =>
    intro h
    rw [hasDouble_cons_false] at h
    simp only [colAux]
    rw [hasDouble_cons_false]
    refine ⟨?_, ih h.2⟩
    cases hx : pairSpace (c :: colAux false rest) with
    | false => rfl
    | true =>
      exfalso
      rw [pairSpace_cons, Bool.and_eq_true] at hx
      have : pairSpace (c :: rest) = true := by
        rw [pairSpace_cons, hx.1, headSp_colAux_false hx.2]; rfl
      rw [this] at h
      simp at h

/-- The collapse loop preserves absence of "null" matches. -/
theorem hasNull_collapseFuel : ∀ (fuel : Nat) {s : List Char},
    hasNull s = false → hasNull (collapseFuel fuel s) = false := by
  intro fuel
  induction fuel with
  | zero => intro s h; simpa [collapseFuel] using h
  | succ n ih =>
    intro s h
    simp only [collapseFuel]
    cases hd : hasDouble s with
    | false => simpa using h
    | true => simpa using ih (hasNull_replaceDouble h)

theorem hasNull_collapseSpaces {s : List Char} (h : hasNull s = false) :
    hasNull (collapseSpaces s) = false :=
  hasNull_collapseFuel s.length h

/-! ### Newline runs: collapse emits no run of three, strip keeps it so -/

theorem headLF_colAux_true (s : List Char) :
    headSat isLF (colAux true s) = false := by
  induction s with
  | nil => simp [colAux, headSat]
  | cons c rest ih =>
    by_cases hc : c = '\n'
    · subst hc
      simpa [colAux] using ih
    · simp [colAux, hc, headSat, isLF]

/-- The scanning state of `colAux` steps over one ordinary character. -/
theorem colAux_false_cons {c : Char} {rest : List Char} (hc : ¬ c = '\n') :
    colAux false (c :: rest) = c :: colAux false rest := by
  cases rest with
  | nil => simp [colAux, hc]
  | cons b r =>
    cases r with
    | nil => simp [colAux, hc]
    | cons d r' => simp [colAux, hc]

theorem headLF_colAux_false {s : List Char}
    (h : headSat isLF (colAux false s) = true) : headSat isLF s = true := by
  cases s with
  | nil => simp [colAux, headSat] at h
  | cons c rest =>
    by_cases hc : c = '\n'
    · subst hc; simp [headSat, isLF]
    · rw [colAux_false_cons hc] at h
      simp only [headSat, isLF, decide_eq_true_eq] at h
      exact absurd h hc

theorem hasTriple_colAux : ∀ (b : Bool) (s : List Char),
    hasTriple (colAux b s) = false := by
  intro b s
  induction b, s using colAux.induct with
  | case1 b => simp [colAux, hasTriple, scanAny]
  | case2 rest ih => simpa [colAux] using ih
  | case3 c rest hne ih =>
    simp only [colAux]
    rw [hasTriple_cons_false]
    refine ⟨?_, ih⟩
    rw [tripleLF_cons]
    have hlf : isLF c = false := by
      simp only [isLF, decide_eq_false_iff_not]
      exact hne
    simp only [hlf, Bool.false_and]
  | case4 rest ih =>
    simp only [colAux]
    rw [hasTriple_cons_false]
    constructor
    · rw [tripleLF_cons]
      have h1 : headSat isLF (('\n' :: colAux true rest).tail) = false := by
        simpa [List.tail] using headLF_colAux_true rest
      simp only [h1, Bool.and_false]
    · rw [hasTriple_cons_false]
      refine ⟨?_, ih⟩
      rw [tripleLF_cons]
      have h1 : headSat isLF (colAux true rest) = false := headLF_colAux_true rest
      simp only [h1, Bool.and_false, Bool.false_and]
  | case5 c rest hne ih =>
    simp only [colAux]
    rw [hasTriple_cons_false]
    refine ⟨?_, ih⟩
    cases hx : tripleLF (c :: colAux false rest) with
    | false => rfl
    | true =>
      exfalso
      rw [tripleLF_cons, Bool.and_eq_true, Bool.and_eq_true] at hx
      obtain ⟨⟨hc, h2⟩, h3⟩ := hx
      simp only [isLF, decide_eq_true_eq] at hc
      subst hc
      have h2' : headSat isLF rest = true := headLF_colAux_false h2
      obtain ⟨d, hd, hdp⟩ := headSat_iff.mp h2'
      simp only [isLF, decide_eq_true_eq] at hdp
      subst hdp
      cases rest with
      | nil => simp [List.head?] at hd
      | cons d' r' =>
        simp only [List.head?, Option.some.injEq] at hd
        subst hd
        -- rest = '\n' :: r'.  The scan at the head did not match, so r'
        -- does not start with two more newlines.
        by_cases hr : headSat isLF r' = true
        · obtain ⟨e, he, hep⟩ := headSat_iff.mp hr
          simp only [isLF, decide_eq_true_eq] at hep
          subst hep
          cases r' with
          | nil => simp [List.head?] at he
          | cons e' r'' =>
            simp only [List.head?, Option.some.injEq] at he
            subst he
            exact hne r'' rfl rfl
        · -- r' does not start with '\n'; then colAux false ('\n'::r')
          -- = '\n' :: colAux false r', whose tail head intersects h3.
          have heq : colAux false ('\n' :: r') = '\n' :: colAux false r' := by
            cases r' with
            | nil => simp [colAux]
            | cons e r'' =>
              have he : ¬ e = '\n' := by
                intro he1
                exact hr (by simp [headSat, isLF, he1])
              simp [colAux, he]
          rw [heq] at h3
          simp only [List.tail] at h3
          exact hr (headLF_colAux_false h3)

/-! ### `pyStrip` returns a contiguous slice of its input -/

theorem pyStrip_decomp (s : List Char) :
    ∃ pre post, s = pre ++ (pyStrip s ++ post) := by
  refine ⟨s.takeWhile pyIsSpace,
    ((s.dropWhile pyIsSpace).reverse.takeWhile pyIsSpace).reverse, ?_⟩
  have h1 : s.takeWhile pyIsSpace ++ s.dropWhile pyIsSpace = s :=
    List.takeWhile_append_dropWhile pyIsSpace s
  have h2 : (s.dropWhile pyIsSpace).reverse.takeWhile pyIsSpace ++
      (s.dropWhile pyIsSpace).reverse.dropWhile pyIsSpace =
      (s.dropWhile pyIsSpace).reverse :=
    List.takeWhile_append_dropWhile pyIsSpace _
  have h3 : s.dropWhile pyIsSpace =
      pyStrip s ++ ((s.dropWhile pyIsSpace).reverse.takeWhile pyIsSpace).reverse := by
    have := congrArg List.reverse h2
    rw [List.reverse_append, List.reverse_reverse] at this
    exact this.symm
  calc s = s.takeWhile pyIsSpace ++ s.dropWhile pyIsSpace := h1.symm
    _ = s.takeWhile pyIsSpace ++
        (pyStrip s ++ ((s.dropWhile pyIsSpace).reverse.takeWhile pyIsSpace).reverse) := by
        rw [← h3]

theorem scanAny_pyStrip {p : List Char → Bool}
    (hp : ∀ l r : List Char, p l = true → p (l ++ r) = true)
    {s : List Char} (h : scanAny p s = false) : scanAny p (pyStrip s) = false := by
  cases hx : scanAny p (pyStrip s) with
  | false => rfl
  | true =>
    exfalso
    obtain ⟨pre, post, hdecomp⟩ := pyStrip_decomp s
    have h1 : scanAny p (pyStrip s ++ post) = true := scanAny_append_left hp hx post
    have h2 : scanAny p (pre ++ (pyStrip s ++ post)) = true := scanAny_append_right h1 pre
    rw [← hdecomp] at h2
    rw [h2] at h
    simp at h

theorem mem_pyStrip {c : Char} {s : List Char} (h : c ∈ pyStrip s) : c ∈ s := by
  obtain ⟨pre, post, hdecomp⟩ := pyStrip_decomp s
  rw [hdecomp]
  simp [h]

/-! ### `pyStrip` is idempotent -/

theorem dropWhile_head_false {p : Char → Bool} :
    ∀ {l : List Char} {c : Char}, (l.dropWhile p).head? = some c → p c = false := by
  intro l
  induction l with
  | nil => intro c h; simp [List.dropWhile] at h
  | cons a t ih =>
    intro c h
    rw [List.dropWhile_cons] at h
    by_cases ha : p a = true
    · rw [if_pos ha] at h
      exact ih h
    · rw [if_neg ha] at h
      simp only [List.head?, Option.some.injEq] at h
      subst h
      simpa using ha

theorem dropWhile_eq_self_of_head {p : Char → Bool} {l : List Char}
    (h : ∀ c, l.head? = some c → p c = false) : l.dropWhile p = l := by
  cases l with
  | nil => simp
  | cons a t =>
    rw [List.dropWhile_cons, if_neg]
    simp [h a rfl]

theorem dropWhile_dropWhile {p : Char → Bool} (l : List Char) :
    (l.dropWhile p).dropWhile p = l.dropWhile p := by
  apply dropWhile_eq_self_of_head
  intro c h
  exact dropWhile_head_false h

theorem pyStrip_idem (s : List Char) : pyStrip (pyStrip s) = pyStrip s := by
  have key : (pyStrip s).dropWhile pyIsSpace = pyStrip s := by
    apply dropWhile_eq_self_of_head
    intro c h
    -- pyStrip s is a left-slice of dropWhile pyIsSpace s, so they share a head.
    have h3 : s.dropWhile pyIsSpace =
        pyStrip s ++ ((s.dropWhile pyIsSpace).reverse.takeWhile pyIsSpace).reverse := by
      have h2 := congrArg List.reverse
        (List.takeWhile_append_dropWhile pyIsSpace (s.dropWhile pyIsSpace).reverse)
      rw [List.reverse_append, List.reverse_reverse] at h2
      exact h2.symm
    have hh : (s.dropWhile pyIsSpace).head? = some c := by
      rw [h3]
      cases hps : pyStrip s with
      | nil => rw [hps] at h; simp at h
      | cons a t =>
        rw [hps] at h
        simp only [List.head?, Option.some.injEq] at h
        subst h
        simp
    exact dropWhile_head_false hh
  show (((pyStrip s).dropWhile pyIsSpace).reverse.dropWhile pyIsSpace).reverse = pyStrip s
  rw [key]
  have h2 : (pyStrip s).reverse = (s.dropWhile pyIsSpace).reverse.dropWhile pyIsSpace := by
    unfold pyStrip
    rw [List.reverse_reverse]
  rw [h2, dropWhile_dropWhile]
  rfl

/-! ### Which characters each stage can produce -/

theorem scanChar_cases (u : Unicode) (d : Char) :
    scanChar u d = ' ' ∨ scanChar u d = d := by
  unfold scanChar
  by_cases h : d = '\n'
  · right; simp [h]
  · by_cases h2 : stripClass u d = true
    · left; simp [h, h2]
    · right; simp [h, h2]

theorem scanChar_space (u : Unicode) : scanChar u ' ' = ' ' := by
  unfold scanChar
  simp

theorem scanChar_lf (u : Unicode) : scanChar u '\n' = '\n' := by
  unfold scanChar
  simp

theorem scanChar_idem (u : Unicode) (d : Char) :
    scanChar u (scanChar u d) = scanChar u d := by
  rcases scanChar_cases u d with h | h
  · rw [h]; exact scanChar_space u
  · rw [h]; exact h

theorem mem_dropBOM {c : Char} {s : List Char} (h : c ∈ dropBOM s) : c ∈ s := by
  cases s with
  | nil => simp [dropBOM] at h
  | cons a t =>
    by_cases ha : a = '\ufeff'
    · rw [show dropBOM (a :: t) = t from by simp [dropBOM, ha]] at h
      exact List.mem_cons_of_mem a h
    · rwa [show dropBOM (a :: t) = a :: t from by simp [dropBOM, ha]] at h

theorem mem_scanText {u : Unicode} {c : Char} {s : List Char}
    (h : c ∈ scanText u s) : c = ' ' ∨ ∃ d ∈ s, c = scanChar u d := by
  unfold scanText at h
  rw [List.mem_map] at h
  obtain ⟨d, hd, hdc⟩ := h
  exact Or.inr ⟨d, hd, hdc.symm⟩

theorem mem_removeNull {c : Char} {s : List Char} (h : c ∈ removeNull s) :
    c = ' ' ∨ c ∈ s := by
  induction s using removeNull.induct with
  | case1 a b d e rest hm ih =>
    simp only [removeNull, hm, if_true, List.mem_cons] at h
    rcases h with h | h
    · exact Or.inl h
    · rcases ih h with h' | h'
      · exact Or.inl h'
      · right; simp [h']
  | case2 a b d e rest hm ih =>
    simp only [removeNull, hm, Bool.false_eq_true, if_false, List.mem_cons] at h
    rcases h with h | h
    · right; simp [h]
    · rcases ih h with h' | h'
      · exact Or.inl h'
      · right
        simp only [List.mem_cons] at h' ⊢
        tauto
  | case3 a rest hne ih =>
    simp only [removeNull, List.mem_cons] at h
    rcases h with h | h
    · right; simp [h]
    · rcases ih h with h' | h'
      · exact Or.inl h'
      · right; simp [h']
  | case4 => simp [removeNull] at h

theorem mem_replaceDouble {c : Char} {s : List Char} (h : c ∈ replaceDouble s) :
    c ∈ s := by
  induction s using replaceDouble.induct with
  | case1 rest ih =>
    simp only [replaceDouble, List.mem_cons] at h
    rcases h with h | h
    · simp [h]
    · simp only [List.mem_cons]
      tauto
  | case2 a rest hne ih =>
    simp only [replaceDouble, List.mem_cons] at h
    rcases h with h | h
    · simp [h]
    · simp only [List.mem_cons]
      tauto
  | case3 => simp [replaceDouble] at h

theorem mem_collapseFuel : ∀ (fuel : Nat) {s : List Char} {c : Char},
    c ∈ collapseFuel fuel s → c ∈ s := by
  intro fuel
  induction fuel with
  | zero => intro s c h; simpa [collapseFuel] using h
  | succ n ih =>
    intro s c h
    simp only [collapseFuel] at h
    by_cases hd : hasDouble s = true
    · rw [if_pos hd] at h
      exact mem_replaceDouble (ih h)
    · rwa [if_neg hd] at h

theorem mem_collapseSpaces {c : Char} {s : List Char}
    (h : c ∈ collapseSpaces s) : c ∈ s :=
  mem_collapseFuel s.length h

theorem mem_replaceCRLF {c : Char} {s : List Char} (h : c ∈ replaceCRLF s) :
    c = '\n' ∨ c ∈ s := by
  induction s using replaceCRLF.induct with
  | case1 rest ih =>
    simp only [replaceCRLF, List.mem_cons] at h
    rcases h with h | h
    · exact Or.inl h
    · rcases ih h with h' | h'
      · exact Or.inl h'
      · right; simp [h']
  | case2 a rest hne ih =>
    simp only [replaceCRLF, List.mem_cons] at h
    rcases h with h | h
    · right; simp [h]
    · rcases ih h with h' | h'
      · exact Or.inl h'
      · right; simp [h']
  | case3 => simp [replaceCRLF] at h

theorem mem_replaceCR {c : Char} {s : List Char} (h : c ∈ replaceCR s) :
    c = '\n' ∨ c ∈ s := by
  unfold replaceCR at h
  rw [List.mem_map] at h
  obtain ⟨d, hd, hdc⟩ := h
  by_cases hdd : d = '\r'
  · left; rw [← hdc, if_pos hdd]
  · right; rw [← hdc, if_neg hdd]; exact hd

theorem mem_colAux : ∀ (b : Bool) {s : List Char} {c : Char},
    c ∈ colAux b s → c = '\n' ∨ c ∈ s := by
  intro b s
  induction b, s using colAux.induct with
  | case1 b => intro c h; simp [colAux] at h
  | case2 rest ih =>
    intro c h
    simp only [colAux] at h
    rcases ih h with h' | h'
    · exact Or.inl h'
    · right; simp [h']
  | case3 a rest hne ih =>
    intro c h
    simp only [colAux, List.mem_cons] at h
    rcases h with h | h
    · right; simp [h]
    · rcases ih h with h' | h'
      · exact Or.inl h'
      · right; simp [h']
  | case4 rest ih =>
    intro c h
    simp only [colAux, List.mem_cons] at h
    rcases h with h | h | h
    · exact Or.inl h
    · exact Or.inl h
    · rcases ih h with h' | h'
      · exact Or.inl h'
      · right; simp [h']
  | case5 a rest hne ih =>
    intro c h
    simp only [colAux, List.mem_cons] at h
    rcases h with h | h
    · right; simp [h]
    · rcases ih h with h' | h'
      · exact Or.inl h'
      · right; simp [h']

theorem noFFFD_replaceFFFD (s : List Char) : '\ufffd' ∉ replaceFFFD s := by
  intro h
  unfold replaceFFFD at h
  rw [List.mem_map] at h
  obtain ⟨d, _, hdc⟩ := h
  by_cases hdd : d = '\ufffd'
  · rw [if_pos hdd] at hdc
    exact absurd hdc (by decide)
  · rw [if_neg hdd] at hdc
    exact hdd hdc

theorem noCR_replaceCR (s : List Char) : '\r' ∉ replaceCR s := by
  intro h
  unfold replaceCR at h
  rw [List.mem_map] at h
  obtain ⟨d, _, hdc⟩ := h
  by_cases hdd : d = '\r'
  · rw [if_pos hdd] at hdc
    exact absurd hdc (by decide)
  · rw [if_neg hdd] at hdc
    exact hdd hdc

/-! ### Invariants of the normalizer's output -/

theorem cleanList_scanFixed (u : Unicode) (x : List Char) :
    ∀ c ∈ cleanList u x, scanChar u c = c := by
  intro c hc
  unfold cleanList collapseNewlines at hc
  have h1 := mem_pyStrip hc
  rcases mem_colAux false h1 with h | h
  · rw [h]; exact scanChar_lf u
  rcases mem_replaceCR h with h | h
  · rw [h]; exact scanChar_lf u
  rcases mem_replaceCRLF h with h | h
  · rw [h]; exact scanChar_lf u
  have h2 := mem_collapseSpaces h
  rcases mem_removeNull h2 with h | h
  · rw [h]; exact scanChar_space u
  rcases mem_scanText h with h | ⟨d, _, hd⟩
  · rw [h]; exact scanChar_space u
  · rw [hd]; exact scanChar_idem u d

theorem cleanList_noFFFD (u : Unicode) (x : List Char) :
    '\ufffd' ∉ cleanList u x := by
  intro hc
  unfold cleanList collapseNewlines at hc
  have h1 := mem_pyStrip hc
  rcases mem_colAux false h1 with h | h
  · exact absurd h (by decide)
  rcases mem_replaceCR h with h | h
  · exact absurd h (by decide)
  rcases mem_replaceCRLF h with h | h
  · exact absurd h (by decide)
  have h2 := mem_collapseSpaces h
  rcases mem_removeNull h2 with h | h
  · exact absurd h (by decide)
  rcases mem_scanText h with h | ⟨d, hd, hsc⟩
  · exact absurd h (by decide)
  · rcases scanChar_cases u d with h' | h'
    · exact absurd (hsc.trans h') (by decide)
    · have hdE : d = '\ufffd' := (hsc.trans h').symm
      rw [hdE] at hd
      exact noFFFD_replaceFFFD _ hd

theorem cleanList_noBOM (u : Unicode) (hB : stripClass u '\ufeff' = true)
    (x : List Char) : '\ufeff' ∉ cleanList u x := by
  intro hc
  unfold cleanList collapseNewlines at hc
  have h1 := mem_pyStrip hc
  rcases mem_colAux false h1 with h | h
  · exact absurd h (by decide)
  rcases mem_replaceCR h with h | h
  · exact absurd h (by decide)
  rcases mem_replaceCRLF h with h | h
  · exact absurd h (by decide)
  have h2 := mem_collapseSpaces h
  rcases mem_removeNull h2 with h | h
  · exact absurd h (by decide)
  rcases mem_scanText h with h | ⟨d, hd, hsc⟩
  · exact absurd h (by decide)
  · rcases scanChar_cases u d with h' | h'
    · exact absurd (hsc.trans h') (by decide)
    · have hdE : d = '\ufeff' := (hsc.trans h').symm
      subst hdE
      have hsc2 : scanChar u '\ufeff' = ' ' := by
        unfold scanChar
        rw [if_neg (by decide), if_pos hB]
      rw [hsc2] at h'
      exact absurd h' (by decide)

theorem cleanList_noCR (u : Unicode) (x : List Char) :
    '\r' ∉ cleanList u x := by
  intro hc
  unfold cleanList collapseNewlines at hc
  have h1 := mem_pyStrip hc
  rcases mem_colAux false h1 with h | h
  · exact absurd h (by decide)
  · exact noCR_replaceCR _ h

theorem cleanList_noNull (u : Unicode) (x : List Char) :
    hasNull (cleanList u x) = false := by
  unfold cleanList collapseNewlines
  exact scanAny_pyStrip (fun l r => match4_append)
    (hasNull_colAux false _ (hasNull_replaceCR (hasNull_replaceCRLF
      (hasNull_collapseSpaces (hasNull_removeNull _)))))

theorem cleanList_noDouble (u : Unicode) (x : List Char) :
    hasDouble (cleanList u x) = false := by
  unfold cleanList collapseNewlines
  exact scanAny_pyStrip (fun l r => pairSpace_append)
    (hasDouble_colAux false _ (hasDouble_replaceCR (hasDouble_replaceCRLF
      (hasDouble_collapseSpaces _))))

theorem cleanList_noTriple (u : Unicode) (x : List Char) :
    hasTriple (cleanList u x) = false := by
  unfold cleanList collapseNewlines
  exact scanAny_pyStrip (fun l r => tripleLF_append) (hasTriple_colAux false _)

/-! ### Each stage is the identity on an already-normalized text -/

theorem dropBOM_id {s : List Char} (h : '\ufeff' ∉ s) : dropBOM s = s := by
  cases s with
  | nil => rfl
  | cons a t =>
    have ha : ¬ a = '\ufeff' := by
      intro ha
      exact h (by simp [ha])
    simp [dropBOM, ha]

theorem map_fix {f : Char → Char} : ∀ {s : List Char},
    (∀ c ∈ s, f c = c) → s.map f = s := by
  intro s
  induction s with
  | nil => intro; rfl
  | cons a t ih =>
    intro h
    simp only [List.map, List.cons.injEq]
    exact ⟨h a (by simp), ih (fun c hc => h c (by simp [hc]))⟩

theorem replaceFFFD_id {s : List Char} (h : '\ufffd' ∉ s) : replaceFFFD s = s := by
  apply map_fix
  intro c hc
  rw [if_neg]
  intro he
  exact h (he ▸ hc)

theorem scanText_id {u : Unicode} {s : List Char}
    (h : ∀ c ∈ s, scanChar u c = c) : scanText u s = s :=
  map_fix h

theorem removeNull_id {s : List Char} (h : hasNull s = false) : removeNull s = s := by
  induction s using removeNull.induct with
  | case1 a b d e rest hm ih =>
    exfalso
    rw [hasNull_cons_false] at h
    rw [match4_cons] at h
    have h3 : match3 (b :: d :: e :: rest) = true := by
      rw [match3_cons, match2_cons]
      simp only [Bool.and_eq_true] at hm
      simp [hm, match1, headSat]
    rw [h3] at h
    simp only [Bool.and_eq_true] at hm
    simp [hm.1] at h
  | case2 a b d e rest hm ih =>
    rw [hasNull_cons_false] at h
    simp only [removeNull, hm, Bool.false_eq_true, if_false, List.cons.injEq]
    exact ⟨trivial, ih h.2⟩
  | case3 a rest hne ih =>
    rw [hasNull_cons_false] at h
    simp only [removeNull, List.cons.injEq]
    exact ⟨trivial, ih h.2⟩
  | case4 => rfl

theorem collapseSpaces_id {s : List Char} (h : hasDouble s = false) :
    collapseSpaces s = s := by
  unfold collapseSpaces
  cases hl : s.length with
  | zero => rfl
  | succ n => simp [collapseFuel, h]

theorem replaceCRLF_id {s : List Char} (h : '\r' ∉ s) : replaceCRLF s = s := by
  induction s using replaceCRLF.induct with
  | case1 rest ih =>
    exfalso
    exact h (by simp)
  | case2 a rest hne ih =>
    simp only [replaceCRLF, List.cons.injEq]
    refine ⟨trivial, ih ?_⟩
    intro hr
    exact h (by simp [hr])
  | case3 => rfl

theorem replaceCR_id {s : List Char} (h : '\r' ∉ s) : replaceCR s = s := by
  apply map_fix
  intro c hc
  rw [if_neg]
  intro he
  exact h (he ▸ hc)


theorem colAux_id : ∀ (b : Bool) (s : List Char), b = false →
    hasTriple s = false → colAux b s = s := by
  intro b s
  induction b, s using colAux.induct with
  | case1 b => intro _ _; cases b <;> rfl
  | case2 rest ih => intro hb _; simp at hb
  | case3 c rest hne ih => intro hb _; simp at hb
  | case4 rest ih =>
    intro _ h
    exfalso
    rw [hasTriple_cons_false] at h
    rw [tripleLF_cons] at h
    simp [headSat, isLF, List.tail] at h
  | case5 c rest hne ih =>
    intro _ h
    rw [hasTriple_cons_false] at h
    by_cases hc : c = '\n'
    · subst hc
      have heq : colAux false ('\n' :: rest) = '\n' :: colAux false rest := by
        cases rest with
        | nil => simp [colAux]
        | cons b r =>
          by_cases hb : b = '\n'
          · cases r with
            | nil => simp [colAux, hb]
            | cons d r' =>
              by_cases hd : d = '\n'
              · exact absurd (by rw [hb, hd]) (hne r' rfl)
              · subst hb
                simp [colAux, hd]
          · simp [colAux, hb]
      rw [heq, List.cons.injEq]
      exact ⟨rfl, ih rfl h.2⟩
    · rw [colAux_false_cons hc, List.cons.injEq]
      exact ⟨rfl, ih rfl h.2⟩

/-! ### Support lemmas for the splitter -/

theorem split_eq_some {tok : Tokenizer} {text : String} {cs ov : Nat}
    (h : chunkStep cs ov ≠ 0) :
    split_chunks_by_tokens tok text cs ov =
      some ((windowStarts (tok.encode text).length (chunkStep cs ov)).map
        (fun i => ((tok.decode (((tok.encode text).drop i).take cs)).getD ""))) := by
  unfold split_chunks_by_tokens
  simp [h]

theorem windowStarts_length (n step : Nat) :
    (windowStarts n step).length = windowCount n step := by
  simp [windowStarts]

theorem windowStarts_get (n step k : Nat) (hk : k < (windowStarts n step).length) :
    (windowStarts n step).get ⟨k, hk⟩ = step * k := by
  rw [List.get_eq_getElem]
  unfold windowStarts
  rw [List.getElem_range']
  simp

theorem mem_windowStarts {n step i : Nat} :
    i ∈ windowStarts n step ↔ ∃ k, k < windowCount n step ∧ i = step * k := by
  unfold windowStarts
  rw [List.mem_range']
  constructor
  · rintro ⟨k, hk, hi⟩
    exact ⟨k, hk, by omega⟩
  · rintro ⟨k, hk, hi⟩
    exact ⟨k, hk, by omega⟩

theorem windowCount_eq {n step : Nat} (hn : 1 ≤ n) (hstep : 1 ≤ step) :
    windowCount n step = (n - 1) / step + 1 := by
  unfold windowCount
  have h1 : n + step - 1 = (n - 1) + step := by omega
  rw [h1, Nat.add_div_right _ hstep]

theorem cover_facts (n step j : Nat) (hstep : 0 < step) (hj : j < n) :
    step * (j / step) ≤ j ∧ j < step * (j / step) + step ∧
      j / step < windowCount n step := by
  have hdm := Nat.div_add_mod j step
  have hmod := Nat.mod_lt j hstep
  refine ⟨by omega, by omega, ?_⟩
  have hle : j / step ≤ (n - 1) / step := Nat.div_le_div_right (by omega)
  rw [windowCount_eq (by omega) hstep]
  omega

theorem window_slice_length (l : List Nat) (cs i : Nat) :
    ((l.drop i).take cs).length = windowEnd l.length cs i - i := by
  simp only [List.length_take, List.length_drop, windowEnd]
  omega

/-! ### The claims -/

set_option maxRecDepth 40000

/-- C1: for the degenerate planner output on an empty normalized text
(n = 0 tokens, so `chunk_size = 0`, `overlap = 0`), the splitter does
NOT return a well-defined empty result: the guard
`if step <= 0: step = chunk_size` leaves `step = 0`, and Python's
`range(0, len(tokens), 0)` raises `ValueError` — modelled here by the
`none` result.  The fault occurs for every tokenizer, in particular for
the empty token stream of the empty text, for which the planner indeed
picks `(0, 0)`. -/
theorem C1_degenerate_raises :
    pick_chunk_params tokEmpty "" = (0, 0) ∧
      ∀ tok : Tokenizer, split_chunks_by_tokens tok "" 0 0 = none := by
  exact ⟨rfl, fun tok => rfl⟩

/-- C2 counterexample: the claim "no codepoint of normalize(x) has
category group C or So" fails on the code, because the scan of lines
30-38 deliberately keeps `'\n'` (general category Cc, group C): the
normalized form of "a\nb" still contains a newline. -/
theorem C2_counterexample :
    stripClass ucd '\n' = true ∧
      ((clean_text ucd "a\nb").data.contains '\n') = true := by
  constructor <;> decide

/-- C2 (amended): the codepoint scan of lines 30-38 replaces every
codepoint of the stripped class (category group C or So) OTHER THAN
`'\n'` by exactly one space (first conjunct, the replacement mechanism
applied to each input codepoint); consequently no codepoint of
`normalize(x)` other than `'\n'` is in the stripped class (second
conjunct, the output invariant, stated for every category function that
classifies the space as the real Unicode database does: U+0020 is Zs,
not stripped). -/
theorem C2_category_invariant_amended :
    ∀ (u : Unicode) (x : String) (c : Char),
      (stripClass u c = true → c ≠ '\n' → scanChar u c = ' ') ∧
      (stripClass u ' ' = false → c ∈ (clean_text u x).data → c ≠ '\n' →
        stripClass u c = false) := by
  intro u x c
  constructor
  · intro hst hlf
    unfold scanChar
    rw [if_neg hlf, if_pos hst]
  · intro hsp hc hlf
    have hfix : scanChar u c = c := cleanList_scanFixed u x.data c hc
    unfold scanChar at hfix
    rw [if_neg hlf] at hfix
    by_cases hst : stripClass u c = true
    · rw [if_pos hst] at hfix
      rw [hfix] at hsp
      simp [hsp] at hst
    · exact Bool.eq_false_iff.mpr hst

/-- C2 witness: the amended statement applied at concrete characters —
the stripped control character `'\t'` is replaced by one space by the
scan, and a letter surviving in a concrete normalized text is not in the
stripped class. -/
theorem C2_category_invariant_witness :
    scanChar ucd '\t' = ' ' ∧ stripClass ucd 'a' = false :=
  ⟨(C2_category_invariant_amended ucd "ab" '\t').1 (by decide) (by decide),
    (C2_category_invariant_amended ucd "ab" 'a').2 (by decide) (by decide) (by decide)⟩

/-- C3 counterexample: scenario 1 of the specification is wrong about the
code.  `clean_text` keeps the two newlines (they are never
category-stripped to spaces), and the space left by the "null" match is
not collapsed into them, so the result is not "Hello world test". -/
theorem C3_scenario_counterexample :
    (clean_text ucd "Hello   world\n\nnull test" == "Hello world test") = false := by
  decide

/-- C3 (amended): the normalized form of "Hello   world\n\nnull test" is
"Hello world\n\n test" — the space runs collapse, "null" becomes one
space, and both newlines survive. -/
theorem C3_scenario_amended :
    clean_text ucd "Hello   world\n\nnull test" = "Hello world\n\n test" := by
  decide

/-- C4 counterexample: the claim quantifies over every text with fewer
than 300 tokens, which includes a text of 0 tokens; there `chunk_size`
is 0 and the splitter faults (returns `none`) instead of producing one
chunk. -/
theorem C4_counterexample :
    (tokEmpty.encode "").length < 300 ∧
      split_chunks_by_tokens tokEmpty ""
        ((tokEmpty.encode "").length) 0 = none := by
  constructor <;> decide

/-- C4 (amended): for every text of `n` tokens with `1 ≤ n < 300`,
splitting with the planner parameters `(n, 0)` yields exactly one chunk,
the decode of the full encoding. -/
theorem C4_small_input_amended :
    ∀ (tok : Tokenizer) (text : String) (s : String),
      1 ≤ (tok.encode text).length → (tok.encode text).length < 300 →
      tok.decode (tok.encode text) = some s →
      split_chunks_by_tokens tok text ((tok.encode text).length) 0 = some [s] := by
  intro tok text s h1 h300 hdec
  have hstep : chunkStep (tok.encode text).length 0 = (tok.encode text).length := by
    unfold chunkStep
    simp
  have hne : chunkStep (tok.encode text).length 0 ≠ 0 := by omega
  rw [split_eq_some hne, hstep]
  have hcount : windowCount (tok.encode text).length (tok.encode text).length = 1 := by
    unfold windowCount
    exact Nat.div_eq_of_lt_le (by omega) (by omega)
  unfold windowStarts
  rw [hcount]
  simp only [List.range', List.map, List.drop_zero]
  rw [List.take_length, hdec]
  rfl

/-- C4 witness: the amended statement applied at a one-token tokenizer. -/
theorem C4_small_input_witness :
    split_chunks_by_tokens tokOne "x" ((tokOne.encode "x").length) 0 = some ["a"] :=
  C4_small_input_amended tokOne "x" "a" (by decide) (by decide) (by decide)

/-- C5 counterexample: with `n = 10`, `chunk_size = 8`, `overlap = 6`
(so `step = 2`), the pair of consecutive windows number 2 and 3 is not
the final pair (the final window has index `windowCount - 1 = 4`), yet
the two windows share only `4` token positions, not `overlap = 6`: the
window at start 4 is already truncated at the end of the stream.  So
"consecutive windows overlap by exactly overlap except possibly the
final window" fails as stated. -/
theorem C5_overlap_counterexample :
    8 ≤ 10 ∧ 0 < 6 ∧ 6 < 8 ∧
      2 + 1 < windowCount 10 (chunkStep 8 6) - 1 ∧
      windowEnd 10 8 (chunkStep 8 6 * 2) - chunkStep 8 6 * (2 + 1) = 4 ∧
      (4 == 6) = false := by
  decide

/-- C5 (amended): for `chunk_size ≤ n` and `0 < overlap < chunk_size`,
the windows `[step*k, windowEnd)` of the splitter cover `[0, n)` with no
gap, and a pair of consecutive windows overlaps by exactly `overlap`
whenever the earlier window of the pair still has full length
(`step*k + chunk_size ≤ n`); truncated windows near the end of the
stream — not only the final one — may overlap by less.  The last window
always ends exactly at `n`.  The first conjunct ties `windowEnd` to the
length of the actual token slice the code decodes. -/
theorem C5_window_coverage_amended :
    ∀ n cs ov : Nat, cs ≤ n → 0 < ov → ov < cs →
      (∀ (l : List Nat) (i : Nat),
        ((l.drop i).take cs).length = windowEnd l.length cs i - i) ∧
      (∀ j, j < n → ∃ k, k < windowCount n (chunkStep cs ov) ∧
        chunkStep cs ov * k ≤ j ∧ j < windowEnd n cs (chunkStep cs ov * k)) ∧
      (∀ k, k + 1 < windowCount n (chunkStep cs ov) →
        chunkStep cs ov * (k + 1) ≤ windowEnd n cs (chunkStep cs ov * k)) ∧
      (∀ k, k + 1 < windowCount n (chunkStep cs ov) →
        chunkStep cs ov * k + cs ≤ n →
        windowEnd n cs (chunkStep cs ov * k) - chunkStep cs ov * (k + 1) = ov) ∧
      windowEnd n cs (chunkStep cs ov * (windowCount n (chunkStep cs ov) - 1)) = n := by
  intro n cs ov hcsn hov hovcs
  have hstep_eq : chunkStep cs ov = cs - ov := by
    unfold chunkStep
    rw [if_neg (by omega)]
  have hstep1 : 1 ≤ cs - ov := by omega
  have hn1 : 1 ≤ n := by omega
  have hcount : windowCount n (cs - ov) = (n - 1) / (cs - ov) + 1 :=
    windowCount_eq hn1 hstep1
  rw [hstep_eq]
  refine ⟨fun l i => window_slice_length l cs i, ?_, ?_, ?_, ?_⟩
  · intro j hj
    obtain ⟨hA, hB, hC⟩ := cover_facts n (cs - ov) j (by omega) hj
    refine ⟨j / (cs - ov), hC, hA, ?_⟩
    unfold windowEnd
    omega
  · intro k hk
    have hmul : (cs - ov) * (k + 1) = (cs - ov) * k + (cs - ov) := Nat.mul_succ _ _
    have hkle : k + 1 ≤ (n - 1) / (cs - ov) := by omega
    have h2 : (cs - ov) * (k + 1) ≤ (cs - ov) * ((n - 1) / (cs - ov)) :=
      Nat.mul_le_mul_left _ hkle
    have h3 : (cs - ov) * ((n - 1) / (cs - ov)) ≤ n - 1 := by
      rw [Nat.mul_comm]
      exact Nat.div_mul_le_self _ _
    unfold windowEnd
    omega
  · intro k hk hfull
    have hmul : (cs - ov) * (k + 1) = (cs - ov) * k + (cs - ov) := Nat.mul_succ _ _
    unfold windowEnd
    omega
  · have hdm := Nat.div_add_mod (n - 1) (cs - ov)
    have hmod := Nat.mod_lt (n - 1) (show 0 < cs - ov by omega)
    rw [hcount]
    simp only [Nat.add_sub_cancel]
    unfold windowEnd
    omega

/-- C5 witness: the amended statement at `n = 10`, `chunk_size = 4`,
`overlap = 2`: token index 9 is covered by some window, and the last
window ends exactly at 10. -/
theorem C5_window_coverage_witness :
    (∃ k, k < windowCount 10 (chunkStep 4 2) ∧
      chunkStep 4 2 * k ≤ 9 ∧ 9 < windowEnd 10 4 (chunkStep 4 2 * k)) ∧
    windowEnd 10 4 (chunkStep 4 2 * (windowCount 10 (chunkStep 4 2) - 1)) = 10 :=
  ⟨(C5_window_coverage_amended 10 4 2 (by decide) (by decide) (by decide)).2.1
      9 (by decide),
    (C5_window_coverage_amended 10 4 2 (by decide) (by decide) (by decide)).2.2.2.2⟩

/-- C6: the planner is exactly the ordered table of lines 64-72 on the
token count, first matching bound first; in particular a text of exactly
250 tokens gets `(250, 0)`. -/
theorem C6_planner_table :
    ∀ (tok : Tokenizer) (text : String),
      ((tok.encode text).length < 300 →
        pick_chunk_params tok text = ((tok.encode text).length, 0)) ∧
      (300 ≤ (tok.encode text).length ∧ (tok.encode text).length < 2000 →
        pick_chunk_params tok text = (512, 64)) ∧
      (2000 ≤ (tok.encode text).length ∧ (tok.encode text).length < 5000 →
        pick_chunk_params tok text = (1024, 128)) ∧
      (5000 ≤ (tok.encode text).length ∧ (tok.encode text).length < 12000 →
        pick_chunk_params tok text = (1500, 200)) ∧
      (12000 ≤ (tok.encode text).length →
        pick_chunk_params tok text = (2000, 250)) ∧
      ((tok.encode text).length = 250 →
        pick_chunk_params tok text = (250, 0)) := by
  intro tok text
  simp only [pick_chunk_params]
  refine ⟨?_, ?_, ?_, ?_, ?_, ?_⟩ <;> intro h <;>
    split_ifs <;> first
      | rfl
      | (exfalso; omega)
      | (rw [Prod.mk.injEq]; exact ⟨h, rfl⟩)

/-- C6 witness: the table applied at a 250-token tokenizer. -/
theorem C6_planner_witness : pick_chunk_params tok250 "" = (250, 0) :=
  (C6_planner_table tok250 "").2.2.2.2.2 (by decide)

/-- C7: `clean_text` is idempotent.  Stated for every category function
that classifies U+FEFF as the real Unicode database does (category Cf,
so in the stripped class); each stage of the second pass is shown to be
the identity on the invariants established by the first pass. -/
theorem C7_normalize_idempotent :
    ∀ u : Unicode, stripClass u '\ufeff' = true →
      ∀ x : String, clean_text u (clean_text u x) = clean_text u x := by
  intro u hB x
  have hBOM := cleanList_noBOM u hB x.data
  have hFFFD := cleanList_noFFFD u x.data
  have hscan := cleanList_scanFixed u x.data
  have hnull := cleanList_noNull u x.data
  have hdbl := cleanList_noDouble u x.data
  have hCR := cleanList_noCR u x.data
  have htrip := cleanList_noTriple u x.data
  suffices h : cleanList u (cleanList u x.data) = cleanList u x.data by
    show String.mk (cleanList u (String.mk (cleanList u x.data)).data) =
      String.mk (cleanList u x.data)
    exact congrArg String.mk h
  show pyStrip (collapseNewlines (replaceCR (replaceCRLF (collapseSpaces
      (removeNull (scanText u (replaceFFFD (dropBOM (cleanList u x.data))))))))) =
    cleanList u x.data
  rw [dropBOM_id hBOM, replaceFFFD_id hFFFD, scanText_id hscan,
    removeNull_id hnull, collapseSpaces_id hdbl, replaceCRLF_id hCR,
    replaceCR_id hCR]
  unfold collapseNewlines
  rw [colAux_id false _ rfl htrip]
  unfold cleanList
  exact pyStrip_idem _

/-- C7 witness: idempotence at the concrete database and a text with a
tab, double spaces and a "null". -/
theorem C7_normalize_idempotent_witness :
    clean_text ucd (clean_text ucd "a\tnull  b") = clean_text ucd "a\tnull  b" :=
  C7_normalize_idempotent ucd (by decide) "a\tnull  b"

/-- C8: for every category function and every input, the normalized text
contains no two consecutive spaces (`hasDouble` is the scan Python's
`"  " in text` performs). -/
theorem C8_no_double_space :
    ∀ (u : Unicode) (x : String), hasDouble (clean_text u x).data = false := by
  intro u x
  exact cleanList_noDouble u x.data

/-- C9: whenever the splitter runs at all (positive step), it returns
`some` list — never a fault — with one chunk per window; a window whose
decode fails yields the empty string, and a window whose decode succeeds
yields exactly the decoded text, independently of the other windows. -/
theorem C9_decode_failure_local :
    ∀ (tok : Tokenizer) (text : String) (cs ov : Nat), 0 < chunkStep cs ov →
      ∃ chunks, split_chunks_by_tokens tok text cs ov = some chunks ∧
        chunks.length = windowCount (tok.encode text).length (chunkStep cs ov) ∧
        ∀ k, ∀ hk : k < chunks.length,
          (tok.decode (((tok.encode text).drop (chunkStep cs ov * k)).take cs) = none →
            chunks.get ⟨k, hk⟩ = "") ∧
          ∀ s, tok.decode (((tok.encode text).drop (chunkStep cs ov * k)).take cs) = some s →
            chunks.get ⟨k, hk⟩ = s := by
  intro tok text cs ov hpos
  refine ⟨_, split_eq_some (by omega), ?_, ?_⟩
  · rw [List.length_map, windowStarts_length]
  · intro k hk
    rw [List.length_map, windowStarts_length] at hk
    have hk' : k < (windowStarts (tok.encode text).length (chunkStep cs ov)).length := by
      rw [windowStarts_length]
      exact hk
    have hget : ((windowStarts (tok.encode text).length (chunkStep cs ov)).map
        (fun i => ((tok.decode (((tok.encode text).drop i).take cs)).getD ""))).get
          ⟨k, by rw [List.length_map]; exact hk'⟩ =
        (tok.decode (((tok.encode text).drop (chunkStep cs ov * k)).take cs)).getD "" := by
      rw [List.get_eq_getElem, List.getElem_map]
      rw [show (windowStarts (tok.encode text).length (chunkStep cs ov))[k] =
        chunkStep cs ov * k from by
          rw [← List.get_eq_getElem _ ⟨k, hk'⟩]
          exact windowStarts_get _ _ _ hk']
    constructor
    · intro hnone
      rw [hget, hnone]
      rfl
    · intro s hsome
      rw [hget, hsome]
      rfl

/-- C9 witness: a tokenizer whose decode rejects exactly the second
window; splitting proceeds, the second chunk is empty, the first is the
decoded text. -/
theorem C9_decode_failure_witness :
    ∃ chunks, split_chunks_by_tokens tokFail "t" 2 0 = some chunks ∧
      chunks.length = windowCount (tokFail.encode "t").length (chunkStep 2 0) ∧
      ∀ k, ∀ hk : k < chunks.length,
        (tokFail.decode (((tokFail.encode "t").drop (chunkStep 2 0 * k)).take 2) = none →
          chunks.get ⟨k, hk⟩ = "") ∧
        ∀ s, tokFail.decode (((tokFail.encode "t").drop (chunkStep 2 0 * k)).take 2) = some s →
          chunks.get ⟨k, hk⟩ = s :=
  C9_decode_failure_local tokFail "t" 2 0 (by decide)

/-- C10: the normalizer's newline policy — `'\n'` is the one character
of the stripped category group that the scan preserves, no carriage
return survives (CRLF and CR are normalized to LF), no run of three or
more newlines survives (collapsed to exactly two), demonstrated
end-to-end on concrete texts. -/
theorem C10_newline_policy :
    (∀ (u : Unicode) (x : String),
      ((clean_text u x).data.contains '\r') = false ∧
      hasTriple (clean_text u x).data = false ∧
      scanChar u '\n' = '\n') ∧
    clean_text ucd "a\nb" = "a\nb" ∧
    clean_text ucd "a\n\n\n\n\nb" = "a\n\nb" := by
  refine ⟨fun u x => ⟨?_, cleanList_noTriple u x.data, scanChar_lf u⟩,
    by decide, by decide⟩
  have h := cleanList_noCR u x.data
  simpa using h
